import Mathlib

set_option maxHeartbeats 1000000

/-!
Shallow embedding of the Nand2Tetris Hack assembler
(src/Project6/Assembler/n2tAssembler.c).

The C program reads an assembly file line by line with fgets into a
100-byte zero-filled buffer (lines carry CRLF terminators), runs a first
pass that collects label declarations into a global symbol table, then a
second pass that parses every line into instruction fields and encodes
them as 16-character binary words.

Modelling conventions:
  * a source line is a `String` that includes its CRLF terminator;
  * the fgets buffer is the line's characters padded with NUL bytes to
    LINEBUFFER_SIZE (`mkBuffer`); C scans that run off the end of that
    buffer (undefined behaviour in the source) are modelled by `Option`:
    `none` / `ParseStatus.overrun` marks the out-of-bounds read;
  * `uint16_t` arithmetic on the address accumulator is `Nat` with an
    explicit `% 65536`;
  * the global symbol table `gSymbolTable` plus `gSymbolTableMeta` is the
    explicit state `SymState`; the table is a list scanned front to back,
    mirroring the linear strcmp scan, with `symbolTableTail` equal to the
    list length;
  * the C character arrays of `ISA_Field` are `String`s; the sentinel
    `addFldString[0] == INVALID_VALUE` that distinguishes A- from
    C-instructions is `Option String`.  (The 5-byte C arrays would
    overflow for fields longer than 4 characters; the model keeps the
    fields unbounded.)
-/

/-- Symbol table state: the entries of `gSymbolTable` (name, value) in
insertion order together with the variable-allocation cursor
`gSymbolTableMeta.currMemory`.  `symbolTableTail` is the list length. -/
structure SymState where
  table : List (String × Nat)
  currMemory : Nat
deriving DecidableEq

/-- Parsed per-line fields, mirroring the C struct `ISA_Field`.
`addFldString = none` models `addFldString[0] == INVALID_VALUE`
(a C-instruction); `some s` models a populated address field string. -/
structure ISA_Field where
  destFldString : String
  jmpFldString : String
  cmpFldString : String
  addFldString : Option String
deriving DecidableEq

/-- Result of `lineParser` on one line: `success w` is SYSTEM_SUCCESS with
the encoded word in `bitFields`; `failure` is SYSTEM_FAILURE (comment,
blank, label, or invalid mnemonic); `overrun` marks a scanning loop of the
C source that would read past the end of the line buffer (undefined
behaviour in C). -/
inductive ParseStatus where
  | success (word : String)
  | failure
  | overrun
deriving DecidableEq

/-- LINEBUFFER_SIZE from the C source. -/
def LINEBUFFER_SIZE : Nat := 100

/-- The fgets line buffer: the line's characters (CRLF included) followed
by the remaining NUL bytes of the 100-byte zeroed buffer. -/
def mkBuffer (l : String) : List Char :=
  l.data ++ List.replicate (LINEBUFFER_SIZE - l.data.length) '\x00'

/-- LookUp Table for the Comp field (`compFieldLT` in the source). -/
def compFieldLT : List (String × String) :=
  [ ("0"   , "0101010"),
    ("1"   , "0111111"),
    ("-1"  , "0111010"),
    ("D"   , "0001100"),
    ("A"   , "0110000"),
    ("!D"  , "0001101"),
    ("!A"  , "0110001"),
    ("-D"  , "0001111"),
    ("-A"  , "0110011"),
    ("D+1" , "0011111"),
    ("A+1" , "0110111"),
    ("D-1" , "0001110"),
    ("A-1" , "0110010"),
    ("D+A" , "0000010"),
    ("D-A" , "0010011"),
    ("A-D" , "0000111"),
    ("D&A" , "0000000"),
    ("D|A" , "0010101"),
    ("M"   , "1110000"),
    ("!M"  , "1110001"),
    ("-M"  , "1110011"),
    ("M+1" , "1110111"),
    ("M-1" , "1110010"),
    ("D+M" , "1000010"),
    ("D-M" , "1010011"),
    ("M-D" , "1000111"),
    ("D&M" , "1000000"),
    ("D|M" , "1010101") ]

/-- LookUp Table for the Dest field (`destFieldLT`); the C entry `"\0"`
is the empty mnemonic. -/
def destFieldLT : List (String × String) :=
  [ (""    , "000"),
    ("M"   , "001"),
    ("D"   , "010"),
    ("MD"  , "011"),
    ("A"   , "100"),
    ("AM"  , "101"),
    ("AD"  , "110"),
    ("AMD" , "111") ]

/-- LookUp Table for the Jump field (`jumpFieldLT`). -/
def jumpFieldLT : List (String × String) :=
  [ (""    , "000"),
    ("JGT" , "001"),
    ("JEQ" , "010"),
    ("JGE" , "011"),
    ("JLT" , "100"),
    ("JNE" , "101"),
    ("JLE" , "110"),
    ("JMP" , "111") ]

/-- Linear front-to-back scan with exact string match, returning the first
hit.  Embeds both the strcmp loops over the encoding tables in
`lineCommand` and the symbol-table loop in `searchSymbolEntry`. -/
def tableLookup {α : Type} : List (String × α) → String → Option α
  | [], _ => none
  | e :: rest, m => if e.1 = m then some e.2 else tableLookup rest m

/-- Initial symbol table contents (the initializer of `gSymbolTable`) and
the initial allocation cursor CURR_MEMORY = 16; the 23 predefined entries
correspond to SYMBOLTABLE_TAIL = 23. -/
def initState : SymState :=
  { table :=
      [ ("R0", 0), ("R1", 1), ("R2", 2), ("R3", 3), ("R4", 4), ("R5", 5),
        ("R6", 6), ("R7", 7), ("R8", 8), ("R9", 9), ("R10", 10), ("R11", 11),
        ("R12", 12), ("R13", 13), ("R14", 14), ("R15", 15),
        ("SCREEN", 16384), ("KBD", 24576),
        ("SP", 0), ("LCL", 1), ("ARG", 2), ("THIS", 3), ("THAT", 4) ],
    currMemory := 16 }

/-- Scan a character list for the first character satisfying `stop`,
returning the characters before it, the stop character itself, and the
characters after it; `none` when the list is exhausted first.  This embeds
the C pointer loops `while (*ptr != X)`: the list is the rest of the
100-byte buffer, and exhausting it is exactly the loop running past the
end of the buffer. -/
def scanUntil (stop : Char → Bool) : List Char → Option (List Char × Char × List Char)
  | [] => none
  | c :: rest =>
    if stop c then some ([], c, rest)
    else
      match scanUntil stop rest with
      | none => none
      | some (pre, d, post) => some (c :: pre, d, post)

/-- The digit characters of `v` in base 10, least significant first, as
produced by the `while (value != 0)` loop of `searchSymbolEntry`; empty
for 0.  Structural recursion on a fuel argument (initialised to `v`,
which bounds the number of divisions by 10) so that the kernel can
evaluate it. -/
def decDigitsRevAux : Nat → Nat → List Char
  | 0, _ => []
  | _, 0 => []
  | fuel + 1, v + 1 => Char.ofNat ((v + 1) % 10 + 48) :: decDigitsRevAux fuel ((v + 1) / 10)

/-- The decimal string `searchSymbolEntry` writes into `addFldString`:
the digits of the loop above copied out in reverse; empty for 0. -/
def decStr (v : Nat) : String := String.mk (decDigitsRevAux v v).reverse

/-- Strip the last two characters (the CRLF terminator): models
`str[strLen - 2] = '\0'` in `searchSymbolEntry`. -/
def stripTerm (s : String) : String := String.mk (s.data.take (s.data.length - 2))

/-- The C `searchSymbolEntry`: strip the CRLF terminator, scan the table
for an exact match; on a hit return the stored value with the state
unchanged, on a miss append a new entry valued at the allocation cursor
and advance the cursor.  Returns the value that the C code renders into
`addFldString` together with the updated table state. -/
def searchSymbolEntry (st : SymState) (line : String) : Nat × SymState :=
  let str := stripTerm line
  match tableLookup st.table str with
  | some v => (v, st)
  | none =>
    (st.currMemory,
     { table := st.table ++ [(str, st.currMemory)], currMemory := st.currMemory + 1 })

/-- Accumulating loop of the A-instruction branch of `lineCommand`:
`addr += (c - '0') * pow(10, powTen)` on a `uint16_t` accumulator,
modelled with an explicit `% 65536` per step.  `c - '0'` is `c.toNat - 48`.
This is faithful to the C exactly on operands whose characters are all at
least `'0'` and whose partial sums stay below 2^16 (there the double
arithmetic is exact and the conversions are in range); for a character
below `'0'` or an out-of-range sum the C converts a negative or
over-range double to `uint16_t`, which is undefined behaviour, so no
theorem below asserts a word value outside the faithful regime. -/
def addrOfDigitsAux : Nat → List Char → Nat
  | addr, [] => addr
  | addr, c :: rest => addrOfDigitsAux ((addr + (c.toNat - 48) * 10 ^ rest.length) % 65536) rest

/-- Value of the address field string, as computed by `lineCommand`. -/
def addrOfDigits (s : List Char) : Nat := addrOfDigitsAux 0 s

/-- Bit-extraction loop of `lineCommand`: for `bitPos` from `w - 1` down
to 0 emit the character of bit `bitPos` of `addr`
(`((addr & (1 << bitPos)) >> bitPos) + '0'`). -/
def bitsOfAux (addr : Nat) : Nat → List Char
  | 0 => []
  | w + 1 => (if (addr >>> w) % 2 = 1 then '1' else '0') :: bitsOfAux addr w

/-- The 16-character binary word for an address value (BITFIELD_MAX = 16),
most significant bit first. -/
def bitsOf (addr : Nat) : String := String.mk (bitsOfAux addr 16)

/-- The `if (*ptr > '9')` test of the A-instruction branch of
`lineParser`: the operand is treated as a symbol exactly when its first
character compares above `'9'`. -/
def isSymbolOperand (c : Char) : Bool := 57 < c.toNat

/-- Comp- and jump-field extraction of the C-instruction branch of
`lineParser`, after the destination has been settled: split `tail` at `;`
or the CR terminator into the comp field, and after a `;` read the jump
field up to CR or a space (no `;` means an empty jump field).  `none`
models a scan running past the end of the line buffer. -/
def parseCRemainder (dest : String) (tail : List Char) : Option ISA_Field :=
  match scanUntil (fun c => c = ';' || c = '\r') tail with
  | none => none
  | some (cmp, stop2, rest2) =>
    if stop2 = ';' then
      match scanUntil (fun c => c = '\r' || c = ' ') rest2 with
      | none => none
      | some (jmp, _, _) =>
        some { destFldString := dest, jmpFldString := String.mk jmp,
               cmpFldString := String.mk cmp, addFldString := none }
    else
      some { destFldString := dest, jmpFldString := "",
             cmpFldString := String.mk cmp, addFldString := none }

/-- C-instruction field extraction (the else-branch of `lineParser`):
scan for `=` (a `;` seen first aborts the destination scan and reparses
the whole line from the start with an empty destination), then extract
the comp and jump fields from the remainder.  `none` models any of the
scans running past the end of the line buffer. -/
def parseCInstr (buf : List Char) : Option ISA_Field :=
  match scanUntil (fun c => c = '=' || c = ';') buf with
  | none => none
  | some (pre, stopc, rest) =>
    if stopc = '=' then parseCRemainder (String.mk pre) rest
    else parseCRemainder "" buf

/-- The C `lineCommand`: an A-instruction (address field populated)
unconditionally succeeds with the 16-bit rendering of the decimal address
field; a C-instruction writes the `111` pad then looks up the comp, dest
and jump fields in order, failing (no word) on the first miss. -/
def lineCommand (f : ISA_Field) : Option String :=
  match f.addFldString with
  | some add => some (bitsOf (addrOfDigits add.data))
  | none =>
    match tableLookup compFieldLT f.cmpFldString with
    | none => none
    | some comp =>
      match tableLookup destFieldLT f.destFldString with
      | none => none
      | some dest =>
        match tableLookup jumpFieldLT f.jmpFldString with
        | none => none
        | some jump => some ("111" ++ comp ++ dest ++ jump)

/-- The C `lineParser` on one line buffer: comments (`//`) and lines
starting with CR are skipped; `@` lines take the symbol path (first
operand character above `'9'`: strcpy up to NUL, resolve or allocate via
the symbol table, render the value in decimal) or the literal path (copy
up to CR), then always encode successfully; `(` lines re-register the
label (with an explicit CRLF appended) and report failure (no output);
anything else is parsed as a C-instruction and encoded, failing on an
unmatched mnemonic.  The state result is the possibly extended symbol
table. -/
def lineParser (st : SymState) (buf : List Char) : ParseStatus × SymState :=
  if buf.take 2 = ['/', '/'] then (ParseStatus.failure, st)
  else if buf.head? = some '\r' then (ParseStatus.failure, st)
  else if buf.head? = some '@' then
    match buf.drop 1 with
    | [] => (ParseStatus.overrun, st)
    | c :: rest =>
      if isSymbolOperand c then
        let name := String.mk ((c :: rest).takeWhile (fun x => x ≠ '\x00'))
        let r := searchSymbolEntry st name
        (ParseStatus.success (bitsOf (addrOfDigits (decStr r.1).data)), r.2)
      else
        match scanUntil (fun x => x = '\r') (c :: rest) with
        | none => (ParseStatus.overrun, st)
        | some (digits, _, _) => (ParseStatus.success (bitsOf (addrOfDigits digits)), st)
  else if buf.head? = some '(' then
    match scanUntil (fun x => x = ')') (buf.drop 1) with
    | none => (ParseStatus.overrun, st)
    | some (lbl, _, _) =>
      let r := searchSymbolEntry st (String.mk (lbl ++ ['\r', '\n']))
      (ParseStatus.failure, r.2)
  else
    match parseCInstr buf with
    | none => (ParseStatus.overrun, st)
    | some f =>
      match lineCommand f with
      | some w => (ParseStatus.success w, st)
      | none => (ParseStatus.failure, st)

/-- The C `firstPass` loop with the running instruction counter
`lineCount` made explicit: comments and CR-blank lines are skipped, a
`(` line copies the text up to `)` and appends it to the symbol table
valued at the current counter (no duplicate check), and every other line
increments the counter.  `none` models the label-copy loop running past
the buffer when no `)` is present. -/
def firstPassAux (st : SymState) (k : Nat) : List String → Option (SymState × Nat)
  | [] => some (st, k)
  | l :: rest =>
    if (mkBuffer l).take 2 = ['/', '/'] then firstPassAux st k rest
    else if (mkBuffer l).head? = some '\r' then firstPassAux st k rest
    else if (mkBuffer l).head? = some '(' then
      match scanUntil (fun c => c = ')') ((mkBuffer l).drop 1) with
      | none => none
      | some (lbl, _, _) =>
        firstPassAux { st with table := st.table ++ [(String.mk lbl, k)] } k rest
    else firstPassAux st (k + 1) rest

/-- First pass over the whole input. -/
def firstPass (st : SymState) (lines : List String) : Option SymState :=
  (firstPassAux st 0 lines).map Prod.fst

/-- The C `secondPass` loop: parse every line, emit the encoded word on
success, silently skip the line on failure, and thread the symbol-table
state; `none` if any line makes the parser run past its buffer. -/
def secondPass (st : SymState) : List String → Option (List String)
  | [] => some []
  | l :: rest =>
    match lineParser st (mkBuffer l) with
    | (ParseStatus.success w, st2) => (secondPass st2 rest).map (fun ws => w :: ws)
    | (ParseStatus.failure, st2) => secondPass st2 rest
    | (ParseStatus.overrun, _) => none

/-- The full two-pass pipeline of `main`: first pass from the initial
symbol table, then the second pass over the same lines starting from the
resulting table state. -/
def runAssembler (lines : List String) : Option (List String) :=
  match firstPassAux initState 0 lines with
  | none => none
  | some (st, _) => secondPass st lines

/-- Classification used by `firstPass`: a line advances the instruction
counter exactly when it is neither a comment, nor a CR-blank line, nor a
label declaration. -/
def isInstrLine (l : String) : Bool :=
  if (mkBuffer l).take 2 = ['/', '/'] then false
  else if (mkBuffer l).head? = some '\r' then false
  else if (mkBuffer l).head? = some '(' then false
  else true

/-- Number of instruction lines (address or computation form, excluding
comments, blanks and labels) in a list of lines. -/
def instrCount (lines : List String) : Nat := (lines.filter isInstrLine).length

/-- A label declaration line `(L)` with its CRLF terminator. -/
def mkLabelLine (L : String) : String := String.mk ('(' :: L.data ++ [')', '\r', '\n'])

/-- Decimal value of a digit string, most significant digit first
(spec-side definition: the literal non-negative integer the operand
denotes). -/
def decValue (ds : List Char) : Nat := ds.foldl (fun a c => 10 * a + (c.toNat - 48)) 0

/-- Positional decimal value: digit times `10 ^ (number of later digits)`,
summed. -/
def polyVal : List Char → Nat
  | [] => 0
  | c :: rest => (c.toNat - 48) * 10 ^ rest.length + polyVal rest

/-- Spec-side rendering of the address word (§8 of the spec): the binary
expansion of `n`, most significant bit first (`Nat.digits 2` is least
significant first, hence the reverse), left-padded with `'0'` to width
16. -/
def specBin16 (n : Nat) : String :=
  String.mk (List.replicate (16 - (Nat.digits 2 n).length) '0' ++
    ((Nat.digits 2 n).reverse.map (fun d => if d = 1 then '1' else '0')))

/-- The low `w` bits of `n`, least significant first, as characters. -/
def lsbList : Nat → Nat → List Char
  | 0, _ => []
  | w + 1, n => (if n % 2 = 1 then '1' else '0') :: lsbList w (n / 2)

/-! Helper lemmas about the linear table scan. -/

/-- A value resolved by the front-to-back scan is unchanged by appending
entries at the tail. -/
theorem tableLookup_append_left {α : Type} (t δ : List (String × α)) (m : String) (v : α)
    (h : tableLookup t m = some v) : tableLookup (t ++ δ) m = some v := by
  induction t with
  | nil => simp [tableLookup] at h
  | cons e rest ih =>
    by_cases he : e.1 = m
    · simpa [tableLookup, he] using h
    · simp only [tableLookup, he, if_false, List.cons_append] at h ⊢
      exact ih h

/-- When the scan misses, appended entries are scanned next. -/
theorem tableLookup_append_right {α : Type} (t δ : List (String × α)) (m : String)
    (h : tableLookup t m = none) : tableLookup (t ++ δ) m = tableLookup δ m := by
  induction t with
  | nil => simp
  | cons e rest ih =>
    by_cases he : e.1 = m
    · simp [tableLookup, he] at h
    · simp only [tableLookup, he, if_false, List.cons_append] at h ⊢
      exact ih h

/-- `searchSymbolEntry` on a name already in the table returns the stored
value and leaves the state unchanged. -/
theorem searchSymbolEntry_found (st : SymState) (name : String) (v : Nat)
    (h : tableLookup st.table (stripTerm name) = some v) :
    searchSymbolEntry st name = (v, st) := by
  simp [searchSymbolEntry, h]

/-- `searchSymbolEntry` on a fresh name appends one entry valued at the
allocation cursor and advances the cursor. -/
theorem searchSymbolEntry_new (st : SymState) (name : String)
    (h : tableLookup st.table (stripTerm name) = none) :
    searchSymbolEntry st name =
      (st.currMemory,
       { table := st.table ++ [(stripTerm name, st.currMemory)],
         currMemory := st.currMemory + 1 }) := by
  simp [searchSymbolEntry, h]

/-- `searchSymbolEntry` only ever appends table entries. -/
theorem searchSymbolEntry_table_append (st : SymState) (name : String) :
    ∃ δ, ((searchSymbolEntry st name).2).table = st.table ++ δ := by
  unfold searchSymbolEntry
  cases h : tableLookup st.table (stripTerm name)
  · exact ⟨[(stripTerm name, st.currMemory)], by simp [h]⟩
  · exact ⟨[], by simp [h]⟩

/-- `lineParser` only ever appends table entries. -/
theorem lineParser_table_append (st : SymState) (buf : List Char) :
    ∃ δ, ((lineParser st buf).2).table = st.table ++ δ := by
  unfold lineParser
  split
  · exact ⟨[], by simp⟩
  split
  · exact ⟨[], by simp⟩
  split
  · split
    · exact ⟨[], by simp⟩
    next c rest _ =>
      split
      · exact searchSymbolEntry_table_append st _
      · split
        · exact ⟨[], by simp⟩
        · exact ⟨[], by simp⟩
  split
  · split
    · exact ⟨[], by simp⟩
    · exact searchSymbolEntry_table_append st _
  · split
    · exact ⟨[], by simp⟩
    · split
      · exact ⟨[], by simp⟩
      · exact ⟨[], by simp⟩

/-- `firstPassAux` only ever appends table entries. -/
theorem firstPassAux_table_append (lines : List String) :
    ∀ st k r, firstPassAux st k lines = some r → ∃ δ, r.1.table = st.table ++ δ := by
  induction lines with
  | nil =>
    intro st k r h
    simp only [firstPassAux, Option.some.injEq] at h
    exact ⟨[], by simp [← h]⟩
  | cons l rest ih =>
    intro st k r h
    simp only [firstPassAux] at h
    split at h
    · exact ih _ _ _ h
    split at h
    · exact ih _ _ _ h
    split at h
    · split at h
      · exact absurd h (by simp)
      next lbl _ _ _ =>
        obtain ⟨δ, hδ⟩ := ih _ _ _ h
        refine ⟨(String.mk lbl, k) :: δ, ?_⟩
        rw [hδ]
        simp
    · exact ih _ _ _ h

/-- `firstPassAux` never touches the variable-allocation cursor. -/
theorem firstPassAux_currMemory (lines : List String) :
    ∀ st k r, firstPassAux st k lines = some r → r.1.currMemory = st.currMemory := by
  induction lines with
  | nil =>
    intro st k r h
    simp only [firstPassAux, Option.some.injEq] at h
    simp [← h]
  | cons l rest ih =>
    intro st k r h
    simp only [firstPassAux] at h
    split at h
    · exact ih _ _ _ h
    split at h
    · exact ih _ _ _ h
    split at h
    · split at h
      · exact absurd h (by simp)
      · have h2 := ih _ _ _ h
        simpa using h2
    · exact ih _ _ _ h

/-- Scanning a list whose head part avoids the stop set and is followed by
a stop character splits exactly there. -/
theorem scanUntil_append (stop : Char → Bool) (pre : List Char) (d : Char) (post : List Char)
    (hpre : ∀ x ∈ pre, stop x = false) (hd : stop d = true) :
    scanUntil stop (pre ++ d :: post) = some (pre, d, post) := by
  induction pre with
  | nil => simp [scanUntil, hd]
  | cons c cs ih =>
    have hc : stop c = false := hpre c (by simp)
    simp [scanUntil, hc, ih (fun x hx => hpre x (by simp [hx]))]

/-- A non-instruction head line does not change the instruction count. -/
theorem instrCount_cons_false (l : String) (rest : List String)
    (h : isInstrLine l = false) : instrCount (l :: rest) = instrCount rest := by
  simp [instrCount, List.filter_cons, h]

/-- An instruction head line adds one to the instruction count. -/
theorem instrCount_cons_true (l : String) (rest : List String)
    (h : isInstrLine l = true) : instrCount (l :: rest) = instrCount rest + 1 := by
  simp [instrCount, List.filter_cons, h, Nat.add_comm]

/-- The counter returned by `firstPassAux` advances by exactly the number
of instruction lines (neither comment, nor blank, nor label). -/
theorem firstPassAux_count (lines : List String) :
    ∀ st k r, firstPassAux st k lines = some r → r.2 = k + instrCount lines := by
  induction lines with
  | nil =>
    intro st k r h
    simp only [firstPassAux, Option.some.injEq] at h
    simp [← h, instrCount]
  | cons l rest ih =>
    intro st k r h
    simp only [firstPassAux] at h
    split at h
    next h1 =>
      rw [instrCount_cons_false l rest (by simp [isInstrLine, h1])]
      exact ih _ _ _ h
    split at h
    next h1 h2 =>
      rw [instrCount_cons_false l rest (by simp [isInstrLine, h1, h2])]
      exact ih _ _ _ h
    split at h
    next h1 h2 h3 =>
      split at h
      · exact absurd h (by simp)
      · rw [instrCount_cons_false l rest (by simp [isInstrLine, h1, h2, h3])]
        exact ih _ _ _ h
    next h1 h2 h3 =>
      rw [instrCount_cons_true l rest (by simp [isInstrLine, h1, h2, h3])]
      have h4 := ih _ _ _ h
      omega

/-- `firstPassAux` over a concatenation sequences the two halves,
threading the state and the counter. -/
theorem firstPassAux_append (pre post : List String) :
    ∀ st k, firstPassAux st k (pre ++ post) =
      (firstPassAux st k pre).bind (fun r => firstPassAux r.1 r.2 post) := by
  induction pre with
  | nil => intro st k; simp [firstPassAux]
  | cons l rest ih =>
    intro st k
    simp only [List.cons_append, firstPassAux]
    split
    · exact ih _ _
    split
    · exact ih _ _
    split
    · split
      · simp
      · exact ih _ _
    · exact ih _ _

/-- Pass one on a well-formed label declaration line `(L)` appends the
entry `(L, k)` at the current counter and continues with the counter
unchanged. -/
theorem firstPassAux_label_cons (st : SymState) (k : Nat) (L : String) (post : List String)
    (hL : ')' ∉ L.data) :
    firstPassAux st k (mkLabelLine L :: post) =
      firstPassAux { st with table := st.table ++ [(L, k)] } k post := by
  have hbuf : mkBuffer (mkLabelLine L) =
      '(' :: (L.data ++ ')' ::
        ('\r' :: '\n' :: List.replicate (LINEBUFFER_SIZE - (mkLabelLine L).data.length) '\x00')) := by
    simp [mkBuffer, mkLabelLine]
  have hc1 : ¬ ((mkBuffer (mkLabelLine L)).take 2 = ['/', '/']) := by
    rw [hbuf]
    intro hcon
    rw [List.take_succ_cons] at hcon
    injection hcon with hh _
    exact absurd hh (by decide)
  have hc2 : ¬ ((mkBuffer (mkLabelLine L)).head? = some '\r') := by
    rw [hbuf]
    intro hcon
    rw [List.head?_cons] at hcon
    injection hcon with hh
    exact absurd hh (by decide)
  have hc3 : (mkBuffer (mkLabelLine L)).head? = some '(' := by
    rw [hbuf, List.head?_cons]
  have hpre : ∀ x ∈ L.data, (fun c => decide (c = ')')) x = false := by
    intro x hx
    simp only [decide_eq_false_iff_not]
    exact fun h => hL (h ▸ hx)
  have hdrop : (mkBuffer (mkLabelLine L)).drop 1 =
      L.data ++ ')' ::
        ('\r' :: '\n' :: List.replicate (LINEBUFFER_SIZE - (mkLabelLine L).data.length) '\x00') := by
    rw [hbuf, List.drop_succ_cons, List.drop_zero]
  have hscan := scanUntil_append (fun c => decide (c = ')')) L.data ')'
    ('\r' :: '\n' :: List.replicate (LINEBUFFER_SIZE - (mkLabelLine L).data.length) '\x00')
    hpre (by decide)
  simp only [firstPassAux]
  rw [if_neg hc1, if_neg hc2, if_pos hc3, hdrop, hscan]

/-- C3: when pass one reaches a label declaration line `(L)` after
processing the lines `pre`, the counter equals the number of instruction
lines in `pre` (comments and blanks never advance it), the label is
inserted with exactly that index as its address, and, the name being new,
every later `@L` reference resolves to that index without allocating. -/
theorem c3_label_address_is_next_instruction_index (pre : List String) (L : String)
    (post : List String) (st : SymState) (k : Nat)
    (h1 : firstPassAux initState 0 pre = some (st, k))
    (h2 : ')' ∉ L.data) :
    k = instrCount pre ∧
    firstPassAux initState 0 (pre ++ mkLabelLine L :: post) =
      firstPassAux { st with table := st.table ++ [(L, instrCount pre)] }
        (instrCount pre) post ∧
    (tableLookup st.table L = none →
      ∀ m, searchSymbolEntry
          { table := st.table ++ [(L, instrCount pre)], currMemory := m }
          (String.mk (L.data ++ ['\r', '\n'])) =
        (instrCount pre,
         { table := st.table ++ [(L, instrCount pre)], currMemory := m })) := by
  have hk : k = instrCount pre := by
    have h3 := firstPassAux_count pre initState 0 (st, k) h1
    simpa using h3
  refine ⟨hk, ?_, ?_⟩
  · rw [firstPassAux_append pre (mkLabelLine L :: post) initState 0, h1]
    show firstPassAux st k (mkLabelLine L :: post) = _
    rw [firstPassAux_label_cons st k L post h2, hk]
  · intro hnone m
    have hstrip : stripTerm (String.mk (L.data ++ ['\r', '\n'])) = L := by
      unfold stripTerm
      have hd : (String.mk (L.data ++ ['\r', '\n'])).data = L.data ++ ['\r', '\n'] := rfl
      rw [hd]
      have hlen : (L.data ++ ['\r', '\n']).length - 2 = L.data.length := by simp
      rw [hlen, List.take_left]
    apply searchSymbolEntry_found
    rw [hstrip]
    have ht : ({ table := st.table ++ [(L, instrCount pre)], currMemory := m } : SymState).table
        = st.table ++ [(L, instrCount pre)] := rfl
    rw [ht, tableLookup_append_right _ _ _ hnone]
    simp [tableLookup]

/-- C3 witness: after the three instruction lines `@2`, `D=A`, `@3`, a
declaration `(LOOP)` is recorded at index 3 and a later `@LOOP` resolves
to 3. -/
theorem c3_label_address_witness :
    (3 : Nat) = instrCount ["@2\r\n", "D=A\r\n", "@3\r\n"] ∧
    firstPassAux initState 0 (["@2\r\n", "D=A\r\n", "@3\r\n"] ++ mkLabelLine "LOOP" :: []) =
      firstPassAux
        { initState with
          table := initState.table ++ [("LOOP", instrCount ["@2\r\n", "D=A\r\n", "@3\r\n"])] }
        (instrCount ["@2\r\n", "D=A\r\n", "@3\r\n"]) [] ∧
    (tableLookup initState.table "LOOP" = none →
      ∀ m, searchSymbolEntry
          { table := initState.table ++ [("LOOP", instrCount ["@2\r\n", "D=A\r\n", "@3\r\n"])],
            currMemory := m }
          (String.mk ("LOOP".data ++ ['\r', '\n'])) =
        (instrCount ["@2\r\n", "D=A\r\n", "@3\r\n"],
         { table := initState.table ++ [("LOOP", instrCount ["@2\r\n", "D=A\r\n", "@3\r\n"])],
           currMemory := m })) :=
  c3_label_address_is_next_instruction_index ["@2\r\n", "D=A\r\n", "@3\r\n"] "LOOP" []
    initState 3 (by decide) (by decide)

/-- A scan over a list containing a stop character succeeds. -/
theorem scanUntil_isSome (stop : Char → Bool) (l : List Char)
    (h : ∃ x ∈ l, stop x = true) :
    ∃ pre d post, scanUntil stop l = some (pre, d, post) := by
  induction l with
  | nil => simp at h
  | cons c cs ih =>
    by_cases hc : stop c = true
    · exact ⟨[], c, cs, by simp [scanUntil, hc]⟩
    · have hc2 : stop c = false := by simpa using hc
      obtain ⟨x, hx, hsx⟩ := h
      rcases List.mem_cons.mp hx with rfl | hx2
      · exact absurd hsx (by simp [hc2])
      · obtain ⟨pre, d, post, hres⟩ := ih ⟨x, hx2, hsx⟩
        exact ⟨c :: pre, d, post, by simp [scanUntil, hc2, hres]⟩

/-- A `takeWhile` over a block of characters all satisfying the predicate
followed by padding that does not takes exactly the block. -/
theorem takeWhile_append_replicate (p : Char → Bool) (X : List Char) (k : Nat) (c0 : Char)
    (hX : ∀ x ∈ X, p x = true) (hc0 : p c0 = false) :
    (X ++ List.replicate k c0).takeWhile p = X := by
  induction X with
  | nil =>
    cases k with
    | zero => rfl
    | succ k => simp [List.replicate_succ, List.takeWhile_cons, hc0]
  | cons x xs ih =>
    have hx := hX x (by simp)
    simp [List.takeWhile_cons, hx, ih (fun y hy => hX y (by simp [hy]))]

/-- Each step of the bit-extraction loop emits one character. -/
theorem bitsOfAux_length (addr : Nat) : ∀ w, (bitsOfAux addr w).length = w := by
  intro w
  induction w with
  | zero => rfl
  | succ w ih => simp [bitsOfAux, ih]

/-- The emitted address word always has exactly 16 characters. -/
theorem bitsOf_length (addr : Nat) : (bitsOf addr).length = 16 :=
  bitsOfAux_length addr 16

/-- One-step unfolding of `lineParser` on an `@` line: the buffer after
the `@` decides between the symbol path and the literal path. -/
theorem lineParser_address (st : SymState) (c : Char) (t : List Char) :
    lineParser st ('@' :: c :: t) =
      (if isSymbolOperand c then
        (ParseStatus.success (bitsOf (addrOfDigits
           (decStr (searchSymbolEntry st
             (String.mk ((c :: t).takeWhile (fun x => x ≠ '\x00')))).1).data)),
         (searchSymbolEntry st
           (String.mk ((c :: t).takeWhile (fun x => x ≠ '\x00')))).2)
      else
        match scanUntil (fun x => x = '\r') (c :: t) with
        | none => (ParseStatus.overrun, st)
        | some (digits, _, _) => (ParseStatus.success (bitsOf (addrOfDigits digits)), st)) := by
  have hc1 : ¬ (('@' :: c :: t).take 2 = ['/', '/']) := by
    intro hcon
    rw [List.take_succ_cons] at hcon
    injection hcon with hh _
    exact absurd hh (by decide)
  have hc2 : ¬ (('@' :: c :: t).head? = some '\r') := by
    intro hcon
    rw [List.head?_cons] at hcon
    injection hcon with hh
    exact absurd hh (by decide)
  have hc3 : ('@' :: c :: t).head? = some '@' := List.head?_cons
  unfold lineParser
  rw [if_neg hc1, if_neg hc2, if_pos hc3]
  rfl

/-- The literal path of an `@` line: a terminated operand whose first
character does not compare above `'9'` encodes the operand digits with
the symbol table untouched. -/
theorem lineParser_literal (st : SymState) (c : Char) (ds rest : List Char)
    (hc : isSymbolOperand c = false) (hds : '\r' ∉ c :: ds) :
    lineParser st ('@' :: c :: (ds ++ '\r' :: rest)) =
      (ParseStatus.success (bitsOf (addrOfDigits (c :: ds))), st) := by
  rw [lineParser_address st c (ds ++ '\r' :: rest), if_neg (by simp [hc])]
  have hscan : scanUntil (fun x => decide (x = '\r')) ((c :: ds) ++ '\r' :: rest) =
      some (c :: ds, '\r', rest) :=
    scanUntil_append _ (c :: ds) '\r' rest
      (fun x hx => by
        simp only [decide_eq_false_iff_not]
        exact fun h => hds (h ▸ hx))
      (by decide)
  rw [show (c :: (ds ++ '\r' :: rest)) = (c :: ds) ++ '\r' :: rest from rfl, hscan]

/-- The symbol path of an `@` line: a first operand character comparing
above `'9'` resolves the NUL-terminated remainder through the symbol
table. -/
theorem lineParser_symbol (st : SymState) (c : Char) (t : List Char)
    (hc : isSymbolOperand c = true) :
    lineParser st ('@' :: c :: t) =
      (ParseStatus.success (bitsOf (addrOfDigits
         (decStr (searchSymbolEntry st
           (String.mk ((c :: t).takeWhile (fun x => x ≠ '\x00')))).1).data)),
       (searchSymbolEntry st
         (String.mk ((c :: t).takeWhile (fun x => x ≠ '\x00')))).2) := by
  rw [lineParser_address st c t, if_pos hc]

/-- A successful comp/jump extraction always marks the address field
invalid (INVALID_VALUE sentinel). -/
theorem parseCRemainder_addFld (dest : String) (tail : List Char) (f : ISA_Field)
    (h : parseCRemainder dest tail = some f) : f.addFldString = none := by
  unfold parseCRemainder at h
  split at h
  · exact absurd h (by simp)
  split at h
  · split at h
    · exact absurd h (by simp)
    · cases h
      rfl
  · cases h
    rfl

/-- A successful C-instruction field extraction always marks the address
field invalid (INVALID_VALUE sentinel). -/
theorem parseCInstr_addFld (buf : List Char) (f : ISA_Field)
    (h : parseCInstr buf = some f) : f.addFldString = none := by
  unfold parseCInstr at h
  split at h
  · exact absurd h (by simp)
  split at h
  · exact parseCRemainder_addFld _ _ _ h
  · exact parseCRemainder_addFld _ _ _ h

/-- A C-instruction with any field missing from its encoding table
produces no word. -/
theorem lineCommand_none_of_bad_field (f : ISA_Field) (ha : f.addFldString = none)
    (hbad : tableLookup compFieldLT f.cmpFldString = none ∨
            tableLookup destFieldLT f.destFldString = none ∨
            tableLookup jumpFieldLT f.jmpFldString = none) :
    lineCommand f = none := by
  unfold lineCommand
  rw [ha]
  cases hc : tableLookup compFieldLT f.cmpFldString with
  | none => rfl
  | some comp =>
    cases hd : tableLookup destFieldLT f.destFldString with
    | none => rfl
    | some dest =>
      cases hj : tableLookup jumpFieldLT f.jmpFldString with
      | none => rfl
      | some jump => rcases hbad with h | h | h <;> simp_all

/-- Skipped lines leave the second pass to continue with the rest. -/
theorem secondPass_skip_cons (st : SymState) (l : String) (rest : List String)
    (h : lineParser st (mkBuffer l) = (ParseStatus.failure, st)) :
    secondPass st (l :: rest) = secondPass st rest := by
  show (match lineParser st (mkBuffer l) with
    | (ParseStatus.success w, st2) => (secondPass st2 rest).map (fun ws => w :: ws)
    | (ParseStatus.failure, st2) => secondPass st2 rest
    | (ParseStatus.overrun, _) => none) = secondPass st rest
  rw [h]

/-- The accumulating `uint16_t` loop computes the positional value modulo
`2 ^ 16`. -/
theorem addrOfDigitsAux_eq : ∀ ds acc, acc < 65536 →
    addrOfDigitsAux acc ds = (acc + polyVal ds) % 65536 := by
  intro ds
  induction ds with
  | nil =>
    intro acc h
    simp [addrOfDigitsAux, polyVal, Nat.mod_eq_of_lt h]
  | cons c rest ih =>
    intro acc h
    rw [show addrOfDigitsAux acc (c :: rest) =
      addrOfDigitsAux ((acc + (c.toNat - 48) * 10 ^ rest.length) % 65536) rest from rfl]
    rw [ih _ (Nat.mod_lt _ (by norm_num)), polyVal, Nat.mod_add_mod, Nat.add_assoc]

/-- Horner evaluation of a digit list equals its positional value. -/
theorem decValue_foldl : ∀ (ds : List Char) (a : Nat),
    ds.foldl (fun a c => 10 * a + (c.toNat - 48)) a = a * 10 ^ ds.length + polyVal ds := by
  intro ds
  induction ds with
  | nil => intro a; simp [polyVal]
  | cons c rest ih =>
    intro a
    rw [List.foldl_cons, ih, polyVal, List.length_cons]
    ring

/-- The two renderings of the decimal value agree. -/
theorem decValue_eq_polyVal (ds : List Char) : decValue ds = polyVal ds := by
  unfold decValue
  rw [decValue_foldl]
  simp

/-- The address loop of `lineCommand` computes the decimal value modulo
`2 ^ 16`. -/
theorem addrOfDigits_eq_decValue_mod (ds : List Char) :
    addrOfDigits ds = decValue ds % 65536 := by
  unfold addrOfDigits
  rw [addrOfDigitsAux_eq ds 0 (by norm_num), decValue_eq_polyVal]
  simp

/-- C6: a computation-form line whose comp, destination or jump text has
no exact match in its encoding table produces no output word at all (the
parser reports failure with the symbol table untouched) and the second
pass continues with the following lines instead of aborting. -/
theorem c6_unmatched_mnemonic_is_line_local (st : SymState) (l : String) (rest : List String)
    (f : ISA_Field)
    (hc1 : ¬ ((mkBuffer l).take 2 = ['/', '/']))
    (hc2 : ¬ ((mkBuffer l).head? = some '\r'))
    (hc3 : ¬ ((mkBuffer l).head? = some '@'))
    (hc4 : ¬ ((mkBuffer l).head? = some '('))
    (hp : parseCInstr (mkBuffer l) = some f)
    (hbad : tableLookup compFieldLT f.cmpFldString = none ∨
            tableLookup destFieldLT f.destFldString = none ∨
            tableLookup jumpFieldLT f.jmpFldString = none) :
    lineParser st (mkBuffer l) = (ParseStatus.failure, st) ∧
    secondPass st (l :: rest) = secondPass st rest := by
  have hnone : lineCommand f = none :=
    lineCommand_none_of_bad_field f (parseCInstr_addFld _ _ hp) hbad
  have hlp : lineParser st (mkBuffer l) = (ParseStatus.failure, st) := by
    unfold lineParser
    rw [if_neg hc1, if_neg hc2, if_neg hc3, if_neg hc4, hp]
    show (match lineCommand f with
      | some w => (ParseStatus.success w, st)
      | none => (ParseStatus.failure, st)) = (ParseStatus.failure, st)
    rw [hnone]
  exact ⟨hlp, secondPass_skip_cons st l rest hlp⟩

/-- C6 witness: the line `D=Q` (comp text `Q` not in the table) emits
nothing and the following line `@2` is still processed. -/
theorem c6_unmatched_mnemonic_witness :
    lineParser initState (mkBuffer "D=Q\r\n") = (ParseStatus.failure, initState) ∧
    secondPass initState ["D=Q\r\n", "@2\r\n"] = secondPass initState ["@2\r\n"] :=
  c6_unmatched_mnemonic_is_line_local initState "D=Q\r\n" ["@2\r\n"]
    { destFldString := "D", jmpFldString := "", cmpFldString := "Q", addFldString := none }
    (by decide) (by decide) (by decide) (by decide) (by decide) (Or.inl (by decide))

/-- C7 counterexample: the claim says a non-digit first operand character
makes `@name` a symbol reference resolved or allocated via the table, but
on `@$A` the code compares `'$' > '9'`, which is false, takes the literal
path, and leaves the symbol table completely untouched even though `$A`
is absent from it. -/
theorem c7_digit_test_counterexample :
    '$'.isDigit = false ∧ isSymbolOperand '$' = false ∧
    tableLookup initState.table "$A" = none ∧
    (lineParser initState (mkBuffer "@$A\r\n")).2 = initState := by decide

/-- C7 amended: the operand of an `@` line is treated as a symbol —
resolved or allocated via the symbol table — exactly when its first
character compares above `'9'` (code 57).  When the first character
compares less than or equal to `'9'` (every decimal digit, but also every
character below `'0'` such as `'$'`) the line is taken down the literal
path: the symbol table is neither consulted nor modified, and for an
all-digit operand of in-range value the emitted word is the binary
encoding of the operand's decimal value.  (For a non-digit character on
the literal path the C's value computation converts a negative double to
`uint16_t`, which is undefined behaviour, so no word value is asserted
there.) -/
theorem c7_literal_iff_first_char_le_57 (st : SymState) (c : Char) (ops : List Char)
    (h1 : '\r' ∉ c :: ops) (h2 : '\x00' ∉ c :: ops) :
    (isSymbolOperand c = true →
      lineParser st (mkBuffer (String.mk ('@' :: c :: ops ++ ['\r', '\n']))) =
        (ParseStatus.success (bitsOf (addrOfDigits
           (decStr (searchSymbolEntry st (String.mk (c :: ops ++ ['\r', '\n']))).1).data)),
         (searchSymbolEntry st (String.mk (c :: ops ++ ['\r', '\n']))).2)) ∧
    (isSymbolOperand c = false →
      (lineParser st (mkBuffer (String.mk ('@' :: c :: ops ++ ['\r', '\n'])))).2 = st) ∧
    (isSymbolOperand c = false →
      (∀ x ∈ c :: ops, 48 ≤ x.toNat ∧ x.toNat ≤ 57) →
      decValue (c :: ops) < 65536 →
      lineParser st (mkBuffer (String.mk ('@' :: c :: ops ++ ['\r', '\n']))) =
        (ParseStatus.success (bitsOf (decValue (c :: ops))), st)) := by
  obtain ⟨k, hb⟩ : ∃ k, mkBuffer (String.mk ('@' :: c :: ops ++ ['\r', '\n'])) =
      '@' :: c :: (ops ++ '\r' :: '\n' :: List.replicate k '\x00') :=
    ⟨LINEBUFFER_SIZE - (ops.length + 2 + 1 + 1), by simp [mkBuffer]⟩
  refine ⟨?_, ?_, ?_⟩
  · intro hsym
    rw [hb, lineParser_symbol st c _ hsym]
    have htw : (c :: (ops ++ '\r' :: '\n' :: List.replicate k '\x00')).takeWhile
        (fun x => decide (x ≠ '\x00')) = c :: ops ++ ['\r', '\n'] := by
      have hshape : c :: (ops ++ '\r' :: '\n' :: List.replicate k '\x00') =
          (c :: ops ++ ['\r', '\n']) ++ List.replicate k '\x00' := by simp
      rw [hshape]
      refine takeWhile_append_replicate _ _ k _ ?_ (by decide)
      intro x hx
      simp only [decide_eq_true_eq]
      rcases List.mem_cons.mp hx with rfl | hx2
      · exact fun h => h2 (by simp [h])
      rcases List.mem_append.mp hx2 with hx3 | hx3
      · exact fun h => h2 (by simp [h ▸ hx3])
      · rcases List.mem_cons.mp hx3 with rfl | hx4
        · decide
        · rcases List.mem_cons.mp hx4 with rfl | hx5
          · decide
          · simp at hx5
    rw [htw]
  · intro hlit
    rw [hb, lineParser_literal st c ops ('\n' :: List.replicate k '\x00') hlit h1]
  · intro hlit hdig hval
    rw [hb, lineParser_literal st c ops ('\n' :: List.replicate k '\x00') hlit h1]
    have haddr : addrOfDigits (c :: ops) = decValue (c :: ops) := by
      rw [addrOfDigits_eq_decValue_mod, Nat.mod_eq_of_lt hval]
    rw [haddr]

/-- C7 amended witness: `@i` (first character above `'9'`) goes through
the symbol table and is allocated 16; `@$A` (first character `'$'` is
neither a digit nor above `'9'`) takes the literal path with the table
untouched; and the all-digit `@2` emits the binary encoding of 2. -/
theorem c7_literal_iff_first_char_le_57_witness :
    (lineParser initState (mkBuffer (String.mk ('@' :: 'i' :: [] ++ ['\r', '\n']))) =
      (ParseStatus.success (bitsOf (addrOfDigits
         (decStr (searchSymbolEntry initState (String.mk ('i' :: [] ++ ['\r', '\n']))).1).data)),
       (searchSymbolEntry initState (String.mk ('i' :: [] ++ ['\r', '\n']))).2)) ∧
    ((lineParser initState (mkBuffer (String.mk ('@' :: '$' :: ['A'] ++ ['\r', '\n'])))).2 =
      initState) ∧
    (lineParser initState (mkBuffer (String.mk ('@' :: '2' :: [] ++ ['\r', '\n']))) =
      (ParseStatus.success (bitsOf (decValue ('2' :: []))), initState)) :=
  ⟨(c7_literal_iff_first_char_le_57 initState 'i' [] (by decide) (by decide)).1 (by decide),
   (c7_literal_iff_first_char_le_57 initState '$' ['A'] (by decide) (by decide)).2.1 (by decide),
   (c7_literal_iff_first_char_le_57 initState '2' [] (by decide) (by decide)).2.2 (by decide)
     (by decide) (by decide)⟩

/-- C10: every address-form line (an `@` line with a CR-terminated
operand) is encoded unconditionally: the parser reports success and a
16-character word regardless of the operand's value — no range check, no
rejection — in contrast to computation-form lines. -/
theorem c10_address_form_never_rejected (st : SymState) (l : String)
    (h1 : l.data.head? = some '@') (h2 : '\r' ∈ l.data) :
    ∃ w st2, lineParser st (mkBuffer l) = (ParseStatus.success w, st2) ∧ w.length = 16 := by
  rcases hd : l.data with _ | ⟨a, t⟩
  · rw [hd] at h1
    exact absurd h1 (by simp)
  rw [hd, List.head?_cons] at h1
  injection h1 with ha
  subst ha
  rcases t with _ | ⟨c, t2⟩
  · rw [hd] at h2
    exact absurd h2 (by decide)
  have hb : mkBuffer l =
      '@' :: c :: (t2 ++ List.replicate (LINEBUFFER_SIZE - l.data.length) '\x00') := by
    rw [mkBuffer, hd]
    simp
  rw [hb, lineParser_address]
  by_cases hsym : isSymbolOperand c
  · rw [if_pos hsym]
    exact ⟨_, _, rfl, bitsOf_length _⟩
  · rw [if_neg hsym]
    have hcr : '\r' ∈ c :: t2 := by
      rw [hd] at h2
      rcases List.mem_cons.mp h2 with h | h
      · exact absurd h (by decide)
      · exact h
    have hmem : ∃ x ∈ c :: (t2 ++ List.replicate (LINEBUFFER_SIZE - l.data.length) '\x00'),
        (fun x => decide (x = '\r')) x = true := by
      rcases List.mem_cons.mp hcr with h | h
      · exact ⟨c, by simp, by simp [← h]⟩
      · exact ⟨'\r', by simp [List.mem_cons, List.mem_append, h], by simp⟩
    obtain ⟨pre, d, post, hscan⟩ := scanUntil_isSome _ _ hmem
    rw [hscan]
    exact ⟨_, _, rfl, bitsOf_length _⟩

/-- C10 witness: the out-of-range literal `@70000` (needing 17 bits) is
still encoded successfully as a 16-character word. -/
theorem c10_address_form_never_rejected_witness :
    ∃ w st2, lineParser initState (mkBuffer "@70000\r\n") =
      (ParseStatus.success w, st2) ∧ w.length = 16 :=
  c10_address_form_never_rejected initState "@70000\r\n" (by decide) (by decide)

/-- Peeling the most significant of `w + 1` extracted bits. -/
theorem lsbList_succ_snoc : ∀ w n, lsbList (w + 1) n =
    lsbList w n ++ [if (n >>> w) % 2 = 1 then '1' else '0'] := by
  intro w
  induction w with
  | zero =>
    intro n
    simp [lsbList, Nat.shiftRight_zero]
  | succ w ih =>
    intro n
    rw [show lsbList (w + 1 + 1) n =
      (if n % 2 = 1 then '1' else '0') :: lsbList (w + 1) (n / 2) from rfl]
    rw [ih (n / 2)]
    rw [show lsbList (w + 1) n =
      (if n % 2 = 1 then '1' else '0') :: lsbList w (n / 2) from rfl]
    rw [List.cons_append]
    have hsh : (n / 2) >>> w = n >>> (w + 1) := by
      rw [Nat.shiftRight_eq_div_pow, Nat.shiftRight_eq_div_pow, Nat.div_div_eq_div_mul]
      congr 1
      rw [Nat.pow_succ]
      ring
    rw [hsh]

/-- The bit-extraction loop of `lineCommand` produces the reverse of the
least-significant-first bit list. -/
theorem bitsOfAux_eq_reverse : ∀ w n, bitsOfAux n w = (lsbList w n).reverse := by
  intro w
  induction w with
  | zero => intro n; rfl
  | succ w ih =>
    intro n
    rw [show bitsOfAux n (w + 1) =
      (if (n >>> w) % 2 = 1 then '1' else '0') :: bitsOfAux n w from rfl]
    rw [ih n, lsbList_succ_snoc w n, List.reverse_append]
    simp

/-- All extracted bits of zero are zero characters. -/
theorem lsbList_zero : ∀ w, lsbList w 0 = List.replicate w '0' := by
  intro w
  induction w with
  | zero => rfl
  | succ w ih => simp [lsbList, ih, List.replicate_succ]

/-- A number below `2 ^ w` has at most `w` binary digits. -/
theorem digits_two_len_le : ∀ w n, n < 2 ^ w → (Nat.digits 2 n).length ≤ w := by
  intro w
  induction w with
  | zero =>
    intro n hn
    have : n = 0 := by simpa using hn
    simp [this]
  | succ w ih =>
    intro n hn
    rcases Nat.eq_zero_or_pos n with rfl | hpos
    · simp
    · rw [Nat.digits_def' (by norm_num : (1 : Nat) < 2) hpos]
      have hn2 : n / 2 < 2 ^ w := by
        rw [Nat.div_lt_iff_lt_mul (by norm_num : (0 : Nat) < 2)]
        rw [Nat.pow_succ] at hn
        exact hn
      simpa using ih (n / 2) hn2

/-- The extracted low bits of `n < 2 ^ w` are the binary digits of `n`
followed by zero-padding. -/
theorem lsbList_eq_digits : ∀ w n, n < 2 ^ w →
    lsbList w n = (Nat.digits 2 n).map (fun d => if d = 1 then '1' else '0') ++
      List.replicate (w - (Nat.digits 2 n).length) '0' := by
  intro w
  induction w with
  | zero =>
    intro n hn
    have : n = 0 := by simpa using hn
    simp [this, lsbList]
  | succ w ih =>
    intro n hn
    rcases Nat.eq_zero_or_pos n with rfl | hpos
    · simp [lsbList_zero]
    · have hd : Nat.digits 2 n = n % 2 :: Nat.digits 2 (n / 2) :=
        Nat.digits_def' (by norm_num : (1 : Nat) < 2) hpos
      have hn2 : n / 2 < 2 ^ w := by
        rw [Nat.div_lt_iff_lt_mul (by norm_num : (0 : Nat) < 2)]
        rw [Nat.pow_succ] at hn
        exact hn
      rw [show lsbList (w + 1) n =
        (if n % 2 = 1 then '1' else '0') :: lsbList w (n / 2) from rfl]
      rw [ih (n / 2) hn2, hd]
      simp [Nat.succ_sub_succ]

/-- For values below `2 ^ 16` the bit-extraction loop agrees with the
spec-side rendering: binary expansion, MSB first, zero-padded to 16. -/
theorem bitsOf_eq_specBin16 (n : Nat) (hn : n < 65536) : bitsOf n = specBin16 n := by
  unfold bitsOf specBin16
  congr 1
  rw [bitsOfAux_eq_reverse 16 n, lsbList_eq_digits 16 n hn, List.reverse_append]
  simp [List.map_reverse]

/-- C5: for every literal decimal operand (a nonempty all-digit string)
of value `n ≤ 32767`, the address-form line `@n` is encoded as exactly
the 16-character binary expansion of `n`, MSB first, left-padded with
`'0'` to width 16, whose leading character is therefore `'0'`. -/
theorem c5_literal_address_encoding (st : SymState) (ds : List Char) (n : Nat)
    (hne : ds ≠ []) (hdig : ∀ c ∈ ds, 48 ≤ c.toNat ∧ c.toNat ≤ 57)
    (hn : decValue ds = n) (hle : n ≤ 32767) :
    lineParser st (mkBuffer (String.mk ('@' :: ds ++ ['\r', '\n']))) =
      (ParseStatus.success (specBin16 n), st) ∧
    (specBin16 n).data.head? = some '0' := by
  rcases ds with _ | ⟨c, ops⟩
  · exact absurd rfl hne
  constructor
  · have h1 : '\r' ∉ c :: ops := by
      intro hmem
      have h48 := (hdig '\r' hmem).1
      have : '\r'.toNat = 13 := by decide
      omega
    have hlit : isSymbolOperand c = false := by
      have h57 := (hdig c (by simp)).2
      simp only [isSymbolOperand, decide_eq_false_iff_not, Nat.not_lt]
      exact h57
    obtain ⟨k, hb⟩ : ∃ k, mkBuffer (String.mk ('@' :: c :: ops ++ ['\r', '\n'])) =
        '@' :: c :: (ops ++ '\r' :: '\n' :: List.replicate k '\x00') :=
      ⟨LINEBUFFER_SIZE - (ops.length + 2 + 1 + 1), by simp [mkBuffer]⟩
    rw [hb, lineParser_literal st c ops ('\n' :: List.replicate k '\x00') hlit h1]
    have hval : addrOfDigits (c :: ops) = n := by
      rw [addrOfDigits_eq_decValue_mod, hn, Nat.mod_eq_of_lt (by omega)]
    rw [hval, bitsOf_eq_specBin16 n (by omega)]
  · have hlen : (Nat.digits 2 n).length ≤ 15 :=
      digits_two_len_le 15 n (by norm_num; omega)
    show (List.replicate (16 - (Nat.digits 2 n).length) '0' ++
      ((Nat.digits 2 n).reverse.map (fun d => if d = 1 then '1' else '0'))).head? = some '0'
    have h16 : 16 - (Nat.digits 2 n).length = (15 - (Nat.digits 2 n).length) + 1 := by omega
    rw [h16, List.replicate_succ, List.cons_append, List.head?_cons]

/-- C5 witness: the literal line `@2` is encoded as the padded binary
expansion of 2, and its leading character is `'0'`. -/
theorem c5_literal_address_encoding_witness :
    lineParser initState (mkBuffer (String.mk ('@' :: ['2'] ++ ['\r', '\n']))) =
      (ParseStatus.success (specBin16 2), initState) ∧
    (specBin16 2).data.head? = some '0' :=
  c5_literal_address_encoding initState ['2'] 2 (by decide) (by decide) (by decide) (by decide)

/-- C1: running the two-pass pipeline on the six-line input `@2`, `D=A`,
`@3`, `D=D+A`, `@0`, `M=D` emits exactly six output lines, in source
order: `0000000000000010`, `1110110000010000`, `0000000000000011`,
`1110000010010000`, `0000000000000000`, `1110001100001000`. -/
theorem c1_end_to_end_example :
    runAssembler ["@2\r\n", "D=A\r\n", "@3\r\n", "D=D+A\r\n", "@0\r\n", "M=D\r\n"] =
      some ["0000000000000010", "1110110000010000", "0000000000000011",
            "1110000010010000", "0000000000000000", "1110001100001000"] := by decide

/-- C2: for every operation mnemonic of the 28-entry table, destination
mnemonic of the 8-entry table (empty included) and jump mnemonic of the
8-entry table (empty included), the encoder produces exactly the
16-character word `111` ++ 7-bit operation code ++ 3-bit destination code
++ 3-bit jump code, each the documented fixed pattern of its table
entry. -/
theorem c2_encoding_tables :
    ∀ ce ∈ compFieldLT, ∀ de ∈ destFieldLT, ∀ je ∈ jumpFieldLT,
      lineCommand { destFldString := de.1, jmpFldString := je.1,
                    cmpFldString := ce.1, addFldString := none } =
        some ("111" ++ ce.2 ++ de.2 ++ je.2) := by decide

/-- C2 witness: the table entries `0`, `M`, `JGT` encode to the word
built from their documented patterns. -/
theorem c2_encoding_tables_witness :
    lineCommand { destFldString := "M", jmpFldString := "JGT",
                  cmpFldString := "0", addFldString := none } =
      some ("111" ++ "0101010" ++ "001" ++ "001") :=
  c2_encoding_tables ("0", "0101010") (by decide) ("M", "001") (by decide)
    ("JGT", "001") (by decide)

/-- C8: the claim that the computation-form field parser always terminates
without reading past the end of the line buffer fails on the code.  On the
grammar-conforming bare-operation line `D+1` (no `=` and no `;`) the
destination scan of `lineParser` looks only for `=` or `;`, runs past the
CRLF terminator and exhausts the entire 100-byte zero-filled buffer: the
C loop reads past the end of the buffer instead of yielding the fields
(empty destination, operation `D+1`, no jump). -/
theorem c8_bare_operation_overrun :
    lineParser initState (mkBuffer "D+1\r\n") = (ParseStatus.overrun, initState) := by decide

/-- C9: the symbol-table scan returns the first (oldest) matching entry,
and every operation that touches the table only appends entries at the
tail, so a name's resolved value comes from its earliest insertion and is
stable for the rest of the run even if a duplicate entry is appended
later. -/
theorem c9_keep_first_resolution :
    (∀ (t δ : List (String × Nat)) (m : String) (v : Nat),
        tableLookup t m = some v → tableLookup (t ++ δ) m = some v) ∧
    (∀ st name, ∃ δ, ((searchSymbolEntry st name).2).table = st.table ++ δ) ∧
    (∀ lines st k r, firstPassAux st k lines = some r → ∃ δ, r.1.table = st.table ++ δ) ∧
    (∀ st buf, ∃ δ, ((lineParser st buf).2).table = st.table ++ δ) :=
  ⟨tableLookup_append_left, searchSymbolEntry_table_append,
   fun lines st k r h => firstPassAux_table_append lines st k r h,
   lineParser_table_append⟩

/-- C9 witness: a duplicate entry appended at the tail does not change the
resolution of its name. -/
theorem c9_keep_first_resolution_witness :
    tableLookup ([("LOOP", 3)] ++ [("LOOP", 7)]) "LOOP" = some 3 :=
  c9_keep_first_resolution.1 [("LOOP", 3)] [("LOOP", 7)] "LOOP" 3 (by decide)

/-- C4: pass one leaves the allocation cursor at its initial value 16, so
during pass two the first fresh (non-numeric, absent) `@name` reference is
allocated address 16 and appended to the table, each subsequent fresh
variable gets the next consecutive address, and a reference to a name
already present returns its stored address with the state unchanged. -/
theorem c4_variable_allocation :
    (∀ lines r, firstPassAux initState 0 lines = some r → r.1.currMemory = 16) ∧
    (∀ st name, tableLookup st.table (stripTerm name) = none →
        searchSymbolEntry st name =
          (st.currMemory,
           { table := st.table ++ [(stripTerm name, st.currMemory)],
             currMemory := st.currMemory + 1 })) ∧
    (∀ st name v, tableLookup st.table (stripTerm name) = some v →
        searchSymbolEntry st name = (v, st)) :=
  ⟨fun lines r h => firstPassAux_currMemory lines initState 0 r h,
   searchSymbolEntry_new, searchSymbolEntry_found⟩

/-- C4 witness: starting from the initial table, `@i` is allocated 16,
a second fresh variable `@sum` is allocated 17, and re-referencing `@i`
still yields 16 with the state unchanged. -/
theorem c4_variable_allocation_witness :
    searchSymbolEntry initState "i\r\n" =
      (16, { table := initState.table ++ [("i", 16)], currMemory := 17 }) ∧
    searchSymbolEntry { table := initState.table ++ [("i", 16)], currMemory := 17 } "sum\r\n" =
      (17, { table := (initState.table ++ [("i", 16)]) ++ [("sum", 17)], currMemory := 18 }) ∧
    searchSymbolEntry { table := (initState.table ++ [("i", 16)]) ++ [("sum", 17)],
                        currMemory := 18 } "i\r\n" =
      (16, { table := (initState.table ++ [("i", 16)]) ++ [("sum", 17)], currMemory := 18 }) := by
  refine ⟨?_, ?_, ?_⟩
  · rw [c4_variable_allocation.2.1 initState "i\r\n" (by decide)]
    decide
  · rw [c4_variable_allocation.2.1 _ "sum\r\n" (by decide)]
    decide
  · rw [c4_variable_allocation.2.2 _ "i\r\n" 16 (by decide)]
